import Mathlib

/-!
Verification development for the `wal-poc` write-ahead-log manager
(`src/wal/core.rs`).

Shallow embedding conventions:
* Bytes are modelled as `Nat` (the payload `Vec<u8>` is a `List Nat`).
* The `f64` timestamp is never inspected arithmetically by the program; it is
  modelled opaquely as a `Nat` token (its 64-bit pattern), which `bitcode`
  round-trips bitwise.
* `usize` counters (`sequence`, `page_size`) are `Nat`: the program only
  increments and compares them, no overflow-relevant arithmetic occurs.
* The filesystem directory is an association list from segment number `n`
  (file `wal<n>.log`) to file content; `fs::write` failures are modelled by a
  `Bool` outcome parameter on each write, and a failed write leaves the
  modelled file map unchanged (the claims under study only constrain the
  in-memory state on failure and file contents on success).
* The wall clock (`get_current_secs`) is an explicit `now` parameter.
-/

/-- Mirrors `enum EntryType` of `src/wal/core.rs`: the six record kinds. -/
inductive EntryType where
  | Insert
  | Set
  | Delete
  | Checkpoint
  | TransactionBegin
  | TransactionCommit
deriving DecidableEq, Repr

/-- Mirrors `struct WALEntry`: kind, optional payload bytes, timestamp
(opaque token for the `f64`), and transaction id. -/
structure WALEntry where
  entry_type : EntryType
  data : Option (List Nat)
  timestamp : Nat
  transaction_id : Nat
deriving DecidableEq, Repr

/-- Mirrors `WALEntry::size`: `size_of::<EntryType>() + size_of::<f64>() +
size_of::<u64>() + data_size`, where the three `size_of` terms are 1, 8 and 8
bytes and `data_size` is the payload length (0 when absent). -/
def WALEntry.size (e : WALEntry) : Nat :=
  1 + 8 + 8 + (match e.data with | none => 0 | some d => d.length)

namespace bitcode

/-- Little-endian base-256 digits of `n`, fuel-structured so that it reduces
in the kernel; the fuel `n` itself always suffices. -/
def natDigitsAux : Nat → Nat → List Nat
  | 0, _ => []
  | _ + 1, 0 => []
  | fuel + 1, n + 1 => ((n + 1) % 256) :: natDigitsAux fuel ((n + 1) / 256)

/-- Little-endian base-256 digits of `n` (empty for 0). -/
def natDigits (n : Nat) : List Nat :=
  natDigitsAux n n

/-- Value of a little-endian base-256 digit list. -/
def ofDigits256 : List Nat → Nat
  | [] => 0
  | d :: ds => d + 256 * ofDigits256 ds

/-- Length-prefixed base-256 encoding of a natural number. -/
def encNat (n : Nat) : List Nat :=
  (natDigits n).length :: natDigits n

/-- Reads back one length-prefixed natural number, returning it together with
the remaining bytes. -/
def decNat : List Nat → Option (Nat × List Nat)
  | [] => none
  | k :: rest =>
      if k ≤ rest.length then
        some (ofDigits256 (rest.take k), rest.drop k)
      else
        none

/-- Tag byte of each `EntryType` variant. -/
def EntryType.tag : EntryType → Nat
  | .Insert => 0
  | .Set => 1
  | .Delete => 2
  | .Checkpoint => 3
  | .TransactionBegin => 4
  | .TransactionCommit => 5

/-- Reads back an `EntryType` from its tag byte. -/
def decTag : Nat → Option EntryType
  | 0 => some .Insert
  | 1 => some .Set
  | 2 => some .Delete
  | 3 => some .Checkpoint
  | 4 => some .TransactionBegin
  | 5 => some .TransactionCommit
  | _ => none

/-- Modelled from the spec: the `bitcode` crate (not part of this repository)
provides the deterministic binary encoding of one entry — tag byte, an
option marker with a length-prefixed payload when present, then the
timestamp token and transaction id (spec section 4.1 and section 6). -/
def encodeEntry (e : WALEntry) : List Nat :=
  EntryType.tag e.entry_type ::
    ((match e.data with
      | none => [0]
      | some d => 1 :: (encNat d.length ++ d)) ++
     (encNat e.timestamp ++ encNat e.transaction_id))

/-- Modelled from the spec: decoding of one entry, inverse to `encodeEntry`;
returns the entry and the remaining bytes, or `none` on malformed input. -/
def decodeEntry (bs : List Nat) : Option (WALEntry × List Nat) :=
  match bs with
  | [] => none
  | t :: rest =>
      match decTag t with
      | none => none
      | some ty =>
          match rest with
          | 0 :: r2 =>
              match decNat r2 with
              | none => none
              | some (ts, r3) =>
                  match decNat r3 with
                  | none => none
                  | some (tid, r4) =>
                      some (⟨ty, none, ts, tid⟩, r4)
          | 1 :: r2 =>
              match decNat r2 with
              | none => none
              | some (len, r3) =>
                  if len ≤ r3.length then
                    match decNat (r3.drop len) with
                    | none => none
                    | some (ts, r4) =>
                        match decNat r4 with
                        | none => none
                        | some (tid, r5) =>
                            some (⟨ty, some (r3.take len), ts, tid⟩, r5)
                  else none
          | _ => none

/-- Concatenated encodings of a list of entries. -/
def encodeList : List WALEntry → List Nat
  | [] => []
  | e :: es => encodeEntry e ++ encodeList es

/-- Modelled from the spec: `bitcode::encode` of a `Vec<WALEntry>` — a
single serialized container holding the ordered entry sequence
(count-prefixed, then each entry in order). -/
def encode (l : List WALEntry) : List Nat :=
  encNat l.length ++ encodeList l

/-- Reads back exactly `n` consecutive entries. -/
def decodeN : Nat → List Nat → Option (List WALEntry × List Nat)
  | 0, bs => some ([], bs)
  | n + 1, bs =>
      match decodeEntry bs with
      | none => none
      | some (e, rest) =>
          match decodeN n rest with
          | none => none
          | some (es, rest2) => some (e :: es, rest2)

/-- Modelled from the spec: `bitcode::decode` of a `Vec<WALEntry>`; rejects
malformed bytes and trailing garbage with a decode error (`none`). -/
def decode (bs : List Nat) : Option (List WALEntry) :=
  match decNat bs with
  | none => none
  | some (n, rest) =>
      match decodeN n rest with
      | some (es, []) => some es
      | _ => none

end bitcode

/-- Filesystem model: association list from segment number `n` (the file
`wal<n>.log` inside the manager's directory) to its byte content. -/
abbrev FS := List (Nat × List Nat)

/-- Mirrors `fs::write`: create or truncate-and-overwrite the file for
segment `n` with `content`. -/
def fsWrite : FS → Nat → List Nat → FS
  | [], n, content => [(n, content)]
  | (m, c) :: rest, n, content =>
      if m = n then (n, content) :: rest else (m, c) :: fsWrite rest n content

/-- Content of the file for segment `n`, when it exists. -/
def fsRead : FS → Nat → Option (List Nat)
  | [], _ => none
  | (m, c) :: rest, n => if m = n then some c else fsRead rest n

/-- Mirrors `struct WALManager` as returned by the builder: `sequence`,
`page_size` and the in-memory `buffered` entries (the `directory` path field
is not modelled; the directory content lives in `WALState.fs`). -/
structure WALManager where
  sequence : Nat
  page_size : Nat
  buffered : List WALEntry
deriving DecidableEq, Repr

/-- A running manager together with its directory's files. -/
structure WALState where
  sequence : Nat
  page_size : Nat
  buffered : List WALEntry
  fs : FS
deriving DecidableEq, Repr

/-- Outcome of an operation on `&mut self`: the caller keeps the (possibly
mutated) state whether the call returned `Ok` or `Err`. -/
inductive WRes where
  | ok (s : WALState)
  | error (s : WALState)
deriving DecidableEq, Repr

/-- The state held by the caller after the call, success or failure. -/
def WRes.state : WRes → WALState
  | .ok s => s
  | .error s => s

/-- Total encoded-size accounting of a buffer:
`self.buffered.iter().map(|entry| entry.size()).sum()`. -/
def bufferedSize (l : List WALEntry) : Nat :=
  (l.map WALEntry.size).sum

/-- The checkpoint marker synthesized by `WALManager::checkpoint`:
kind `Checkpoint`, no payload, `transaction_id = 0`, timestamp = `now`. -/
def checkpointEntry (now : Nat) : WALEntry :=
  { entry_type := .Checkpoint, data := none, timestamp := now, transaction_id := 0 }

namespace WALState

/-- Mirrors `WALManager::append`: push the entry onto `buffered`, encode the
whole buffer and overwrite `wal<sequence>.log`. `writeOk` models whether the
encode-and-write step succeeds; on failure the buffer has already been
pushed (the `?` propagates after `self.buffered.push(entry)`). -/
def append (writeOk : Bool) (s : WALState) (e : WALEntry) : WRes :=
  let buffered := s.buffered ++ [e]
  if writeOk then
    .ok { s with buffered := buffered,
                 fs := fsWrite s.fs s.sequence (bitcode.encode buffered) }
  else
    .error { s with buffered := buffered }

/-- Mirrors `WALManager::checkpoint`: append a synthesized `Checkpoint`
marker through the normal write path; only if that succeeds, clear the
buffer and increment the sequence. -/
def checkpoint (writeOk : Bool) (now : Nat) (s : WALState) : WRes :=
  match s.append writeOk (checkpointEntry now) with
  | .error s1 => .error s1
  | .ok s1 => .ok { s1 with buffered := [], sequence := s1.sequence + 1 }

/-- Mirrors `WALManager::check_and_mark`: checkpoint when the buffered size
(the incoming entry not counted) strictly exceeds `page_size`. -/
def check_and_mark (writeOk : Bool) (now : Nat) (s : WALState) : WRes :=
  if bufferedSize s.buffered > s.page_size then s.checkpoint writeOk now
  else .ok s

/-- Mirrors `WALManager::append_log`: `check_and_mark` (which may rotate via
`checkpoint`, its write outcome modelled by `cpOk`), then `append` the entry
(write outcome `wrOk`). -/
def append_log (cpOk wrOk : Bool) (now : Nat) (s : WALState) (e : WALEntry) : WRes :=
  match s.check_and_mark cpOk now with
  | .error s1 => .error s1
  | .ok s1 => s1.append wrOk e

end WALState

/-- One file as seen by the recovery scan's directory listing: whether its
extension is `log`, its creation time (present on disk but never consulted
by the code; listed so the claimed most-recently-created selection rule can
be stated), and its content. The list order of a `List DirFile` is the
`read_dir` enumeration order. -/
structure DirFile where
  isLog : Bool
  created : Nat
  content : List Nat
deriving DecidableEq, Repr

/-- Mirrors `WALBuilder::load_data`: filter the listing to `.log` files; if
none, `(1, [])`; otherwise take the LAST file in listing order, let the
candidate sequence be the count of log files, decode the file (decode
failure aborts), and if its last entry is a `Checkpoint` advance the
sequence once more, else recover its entries. -/
def load_data (dir : List DirFile) : Option (Nat × List WALEntry) :=
  let log_files := dir.filter (fun f => f.isLog)
  match log_files.getLast? with
  | none => some (1, [])
  | some last_log =>
      let log_sequence := log_files.length
      match bitcode.decode last_log.content with
      | none => none
      | some saved_entries =>
          match saved_entries.getLast? with
          | some last_entry =>
              match last_entry.entry_type with
              | .Checkpoint => some (log_sequence + 1, [])
              | _ => some (log_sequence, saved_entries)
          | none => some (log_sequence, [])

/-- Mirrors `WALBuilder::build`: run `load_data`, keep its sequence, and
construct the manager with `buffered: Vec::new()` — the recovered entries
are discarded. -/
def build (page_size : Nat) (dir : List DirFile) : Option WALManager :=
  match load_data dir with
  | none => none
  | some (sequence, _buffered) => some ⟨sequence, page_size, []⟩

/-- Decoded content of the currently active segment file `wal<sequence>.log`,
when that file exists and decodes. -/
def activeDecode (s : WALState) : Option (List WALEntry) :=
  (fsRead s.fs s.sequence).bind bitcode.decode

/-- Number of checkpoints a successful `append_log` performs from state `s`:
one exactly when the buffered size strictly exceeds the page size. -/
def cpCount (s : WALState) : Nat :=
  if bufferedSize s.buffered > s.page_size then 1 else 0

/-- One successful public operation, labelled with how many checkpoints
(explicit or threshold-triggered) it performed. -/
inductive OpStep : WALState → Nat → WALState → Prop where
  | append_log_step (now : Nat) (e : WALEntry) (s s1 : WALState) :
      s.append_log true true now e = .ok s1 → OpStep s (cpCount s) s1
  | checkpoint_step (now : Nat) (s s1 : WALState) :
      s.checkpoint true now = .ok s1 → OpStep s 1 s1

/-- Reachability by successful operations, counting checkpoints performed. -/
inductive Reaches : WALState → Nat → WALState → Prop where
  | refl (s : WALState) : Reaches s 0 s
  | step {s : WALState} {n : Nat} {s1 : WALState} {m : Nat} {s2 : WALState} :
      Reaches s n s1 → OpStep s1 m s2 → Reaches s (n + m) s2

/-- Whether a decoded entry sequence marks its segment as sealed: its last
entry is a `Checkpoint`. -/
def sealedBySuffix (es : List WALEntry) : Bool :=
  match es.getLast? with
  | some le => match le.entry_type with | .Checkpoint => true | _ => false
  | none => false

/-- Follows the claim's words (C4): among the log files, the one with the
greatest creation time — the most-recently-created segment file. -/
def mostRecentLog : List DirFile → Option DirFile
  | [] => none
  | f :: fs =>
      match mostRecentLog fs with
      | none => some f
      | some g => if g.created < f.created then some f else some g

/-- Follows the claim's words (C4): the recovery scan as the claim states
it — identical to `load_data` except that the file inspected is the
most-recently-created log file rather than the last one in listing order. -/
def load_data_claimed (dir : List DirFile) : Option (Nat × List WALEntry) :=
  let log_files := dir.filter (fun f => f.isLog)
  match mostRecentLog log_files with
  | none => some (1, [])
  | some chosen =>
      let log_sequence := log_files.length
      match bitcode.decode chosen.content with
      | none => none
      | some saved_entries =>
          match saved_entries.getLast? with
          | some last_entry =>
              match last_entry.entry_type with
              | .Checkpoint => some (log_sequence + 1, [])
              | _ => some (log_sequence, saved_entries)
          | none => some (log_sequence, [])

/-- Sample data-carrying entry used by concrete witnesses. -/
def eIns : WALEntry := ⟨.Insert, some [42], 7, 1⟩

/-- Sample directory listing: the first log file was created later
(time 10) and ends in a `Checkpoint`; the second, listed last, was created
earlier (time 5) and ends in an `Insert`. -/
def dirTwoLogs : List DirFile :=
  [⟨true, 10, bitcode.encode [checkpointEntry 0]⟩,
   ⟨true, 5, bitcode.encode [eIns]⟩]

/-- Sample directory holding one log file whose content decodes to an empty
entry sequence. -/
def dirEmptySegment : List DirFile := [⟨true, 0, bitcode.encode []⟩]

/-- Sample fresh manager state over an empty directory. -/
def sFresh : WALState := ⟨1, 4096, [], []⟩

/-- The state `sFresh` reaches by one successful checkpoint at time 0. -/
def sAfterCp : WALState :=
  ⟨2, 4096, [], [(1, bitcode.encode [checkpointEntry 0])]⟩

/-- Sample state whose buffered size (18 bytes) exceeds its page size 0, so
the next `append_log` rotates first. -/
def sHot : WALState := ⟨1, 0, [eIns], []⟩

namespace bitcode

theorem ofDigits256_natDigitsAux (fuel n : Nat) (h : n ≤ fuel) :
    ofDigits256 (natDigitsAux fuel n) = n := by
  induction fuel generalizing n with
  | zero =>
      interval_cases n
      simp [natDigitsAux, ofDigits256]
  | succ fuel ih =>
      cases n with
      | zero => simp [natDigitsAux, ofDigits256]
      | succ m =>
          have hdiv : (m + 1) / 256 ≤ fuel := by
            have h1 : (m + 1) / 256 < m + 1 := Nat.div_lt_self (Nat.succ_pos m) (by omega)
            omega
          simp only [natDigitsAux, ofDigits256, ih _ hdiv]
          omega

theorem ofDigits256_natDigits (n : Nat) : ofDigits256 (natDigits n) = n :=
  ofDigits256_natDigitsAux n n le_rfl

theorem decNat_encNat (n : Nat) (rest : List Nat) :
    decNat (encNat n ++ rest) = some (n, rest) := by
  simp [encNat, decNat, List.take_append, List.drop_append, ofDigits256_natDigits]

theorem decTag_tag (t : EntryType) : decTag (EntryType.tag t) = some t := by
  cases t <;> rfl

theorem decodeEntry_encodeEntry (e : WALEntry) (rest : List Nat) :
    decodeEntry (encodeEntry e ++ rest) = some (e, rest) := by
  obtain ⟨ty, data, ts, tid⟩ := e
  cases data with
  | none =>
      simp [encodeEntry, decodeEntry, decTag_tag, decNat_encNat]
  | some d =>
      simp only [encodeEntry, List.cons_append, List.append_assoc, decodeEntry, decTag_tag]
      rw [show encNat d.length ++ (d ++ (encNat ts ++ (encNat tid ++ rest)))
            = encNat d.length ++ (d ++ (encNat ts ++ encNat tid ++ rest)) by
        simp [List.append_assoc]]
      rw [decNat_encNat]
      simp [List.take_append, List.drop_append, decNat_encNat]

theorem decodeN_encodeList (l : List WALEntry) (rest : List Nat) :
    decodeN l.length (encodeList l ++ rest) = some (l, rest) := by
  induction l generalizing rest with
  | nil => simp [encodeList, decodeN]
  | cons e es ih =>
      simp [encodeList, decodeN, List.append_assoc, decodeEntry_encodeEntry, ih]

theorem decode_encode (l : List WALEntry) : decode (encode l) = some l := by
  have h := decodeN_encodeList l []
  simp only [List.append_nil] at h
  simp [encode, decode, decNat_encNat, h]

end bitcode

theorem fsRead_fsWrite_self (fs : FS) (n : Nat) (c : List Nat) :
    fsRead (fsWrite fs n c) n = some c := by
  induction fs with
  | nil => simp [fsWrite, fsRead]
  | cons hd tl ih =>
      obtain ⟨m, cc⟩ := hd
      by_cases h : m = n <;> simp [fsWrite, fsRead, h, ih]

theorem fsRead_fsWrite_ne (fs : FS) (n k : Nat) (c : List Nat) (h : n ≠ k) :
    fsRead (fsWrite fs n c) k = fsRead fs k := by
  induction fs with
  | nil => simp [fsWrite, fsRead, h]
  | cons hd tl ih =>
      obtain ⟨m, cc⟩ := hd
      by_cases hm : m = n <;> simp [fsWrite, fsRead, hm, h, ih]

theorem append_true_eq (s : WALState) (e : WALEntry) :
    s.append true e =
      .ok ⟨s.sequence, s.page_size, s.buffered ++ [e],
           fsWrite s.fs s.sequence (bitcode.encode (s.buffered ++ [e]))⟩ := rfl

theorem append_false_eq (s : WALState) (e : WALEntry) :
    s.append false e = .error ⟨s.sequence, s.page_size, s.buffered ++ [e], s.fs⟩ := rfl

theorem checkpoint_true_eq (s : WALState) (now : Nat) :
    s.checkpoint true now =
      .ok ⟨s.sequence + 1, s.page_size, [],
           fsWrite s.fs s.sequence
             (bitcode.encode (s.buffered ++ [checkpointEntry now]))⟩ := rfl

theorem checkpoint_false_eq (s : WALState) (now : Nat) :
    s.checkpoint false now =
      .error ⟨s.sequence, s.page_size, s.buffered ++ [checkpointEntry now], s.fs⟩ := rfl

theorem append_log_ok_eq (s : WALState) (now : Nat) (e : WALEntry) :
    s.append_log true true now e =
      if bufferedSize s.buffered > s.page_size then
        .ok ⟨s.sequence + 1, s.page_size, [e],
             fsWrite
               (fsWrite s.fs s.sequence
                 (bitcode.encode (s.buffered ++ [checkpointEntry now])))
               (s.sequence + 1) (bitcode.encode [e])⟩
      else
        .ok ⟨s.sequence, s.page_size, s.buffered ++ [e],
             fsWrite s.fs s.sequence (bitcode.encode (s.buffered ++ [e]))⟩ := by
  by_cases h : bufferedSize s.buffered > s.page_size <;>
    simp [WALState.append_log, WALState.check_and_mark, h, checkpoint_true_eq,
          append_true_eq]

theorem opStep_sequence {s : WALState} {m : Nat} {s1 : WALState}
    (h : OpStep s m s1) : s1.sequence = s.sequence + m := by
  cases h with
  | append_log_step now e s s1 hok =>
      rw [append_log_ok_eq] at hok
      by_cases hb : bufferedSize s.buffered > s.page_size <;>
        simp [hb, cpCount] at hok ⊢ <;> simp [← hok]
  | checkpoint_step now s s1 hok =>
      rw [checkpoint_true_eq] at hok
      cases hok
      rfl

theorem reaches_sequence {s : WALState} {n : Nat} {s1 : WALState}
    (h : Reaches s n s1) : s1.sequence = s.sequence + n := by
  induction h with
  | refl => rfl
  | step _ hstep ih =>
      rw [opStep_sequence hstep, ih]
      omega

/-- C8: entry encoding round-trips — decoding the encoding of any single
valid entry returns that entry, and encoding an ordered entry sequence as a
single serialized container then decoding it yields the same sequence in the
same order. -/
theorem entry_encoding_roundtrip :
    (∀ e : WALEntry, bitcode.decodeEntry (bitcode.encodeEntry e) = some (e, [])) ∧
    (∀ l : List WALEntry, bitcode.decode (bitcode.encode l) = some l) := by
  constructor
  · intro e
    have h := bitcode.decodeEntry_encodeEntry e []
    simpa using h
  · exact bitcode.decode_encode

/-- C9: the internal `append` step (also used by `checkpoint`) pushes the
entry into the buffer before the file write, so on a failed write the call
returns an error yet the buffer has already gained the entry while the files
are untouched; `append_log` below the rotation threshold behaves the same. -/
theorem append_mutates_buffer_before_write :
    (∀ (s : WALState) (e : WALEntry),
        s.append false e =
          .error ⟨s.sequence, s.page_size, s.buffered ++ [e], s.fs⟩) ∧
    (∀ (cpOk : Bool) (now : Nat) (s : WALState) (e : WALEntry),
        ¬ bufferedSize s.buffered > s.page_size →
        s.append_log cpOk false now e =
          .error ⟨s.sequence, s.page_size, s.buffered ++ [e], s.fs⟩) := by
  constructor
  · exact append_false_eq
  · intro cpOk now s e h
    simp [WALState.append_log, WALState.check_and_mark, h, append_false_eq]

/-- Witness for C9 at a concrete fresh state and entry. -/
theorem append_mutates_buffer_before_write_witness :
    WALState.append_log true false 0 sFresh eIns =
      .error ⟨1, 4096, [eIns], []⟩ :=
  append_mutates_buffer_before_write.2 true 0 sFresh eIns (by decide)

/-- C1 counterexample: at the concrete fresh state, a `checkpoint` whose
marker write fails does return an error, but the caller's buffer is no
longer what it was before the call — the synthesized marker was pushed into
it before the failed write, refuting the claimed no-mutation atomicity. -/
theorem checkpoint_atomicity_cex :
    WALState.checkpoint false 0 sFresh =
      .error ⟨1, 4096, [checkpointEntry 0], []⟩ ∧
    (WALState.checkpoint false 0 sFresh).state.buffered ≠ sFresh.buffered := by
  decide

/-- C1 (amended): when the checkpoint marker write fails, `checkpoint`
returns an error, the sequence number is not incremented, the buffer is not
cleared and the files are untouched, but the buffer has gained the pushed
`Checkpoint` marker entry. -/
theorem checkpoint_failure_state (now : Nat) (s : WALState) :
    s.checkpoint false now =
      .error ⟨s.sequence, s.page_size, s.buffered ++ [checkpointEntry now], s.fs⟩ ∧
    (s.checkpoint false now).state.sequence = s.sequence ∧
    (s.checkpoint false now).state.fs = s.fs ∧
    (s.checkpoint false now).state.buffered = s.buffered ++ [checkpointEntry now] := by
  refine ⟨checkpoint_false_eq s now, ?_, ?_, ?_⟩ <;> rw [checkpoint_false_eq] <;> rfl

/-- C2 counterexample: at the concrete fresh state, a successful
`checkpoint` leaves the (empty) buffer and an active segment file
`wal<sequence>.log` that does not exist, so decoding the active segment does
not reproduce the buffer — the claimed invariant fails right after a
checkpoint. -/
theorem segment_matches_buffer_cex :
    WALState.checkpoint true 0 sFresh = .ok sAfterCp ∧
    activeDecode sAfterCp ≠ some sAfterCp.buffered := by
  decide

/-- C2 (amended): after any successful `append_log`, decoding the active
segment file yields exactly the in-memory buffer; after a successful
`checkpoint`, the outgoing segment `wal<old sequence>.log` decodes to the
pre-call buffer followed by the checkpoint marker, the buffer is empty, and
the new active segment file has not been written. -/
theorem segment_matches_buffer (cpOk : Bool) (now : Nat) (s : WALState)
    (e : WALEntry) (s1 : WALState) :
    (s.append_log cpOk true now e = .ok s1 →
        activeDecode s1 = some s1.buffered) ∧
    (s.checkpoint true now = .ok s1 →
        (fsRead s1.fs s.sequence).bind bitcode.decode =
          some (s.buffered ++ [checkpointEntry now]) ∧
        s1.buffered = [] ∧
        fsRead s1.fs s1.sequence = fsRead s.fs s1.sequence) := by
  constructor
  · intro h
    by_cases hb : bufferedSize s.buffered > s.page_size
    · cases cpOk with
      | false =>
          simp [WALState.append_log, WALState.check_and_mark, hb,
                checkpoint_false_eq] at h
      | true =>
          rw [append_log_ok_eq, if_pos hb] at h
          cases h
          simp [activeDecode, fsRead_fsWrite_self, bitcode.decode_encode]
    · cases cpOk <;>
        · simp only [WALState.append_log, WALState.check_and_mark, if_neg hb,
                     append_true_eq] at h
          cases h
          simp [activeDecode, fsRead_fsWrite_self, bitcode.decode_encode]
  · intro h
    rw [checkpoint_true_eq] at h
    cases h
    refine ⟨?_, rfl, ?_⟩
    · simp [fsRead_fsWrite_self, bitcode.decode_encode]
    · exact fsRead_fsWrite_ne _ s.sequence (s.sequence + 1) _ (by omega)

/-- Witness for C2 (amended) at a concrete successful `append_log`. -/
theorem segment_matches_buffer_witness :
    activeDecode ⟨1, 4096, [eIns], [(1, bitcode.encode [eIns])]⟩ = some [eIns] :=
  (segment_matches_buffer true 0 sFresh eIns
      ⟨1, 4096, [eIns], [(1, bitcode.encode [eIns])]⟩).1 (by decide)

/-- C3: a successful `append_log` rotates exactly when the buffered size
before the call (the incoming entry not counted) strictly exceeds the page
size; in that case the sequence advances and the buffer ends holding exactly
the new entry, otherwise the sequence is unchanged and the entry is appended
to the existing buffer. -/
theorem append_log_threshold_rotation (now : Nat) (s : WALState) (e : WALEntry)
    (s1 : WALState) (h : s.append_log true true now e = .ok s1) :
    (bufferedSize s.buffered > s.page_size →
        s1.sequence = s.sequence + 1 ∧ s1.buffered = [e]) ∧
    (¬ bufferedSize s.buffered > s.page_size →
        s1.sequence = s.sequence ∧ s1.buffered = s.buffered ++ [e]) := by
  rw [append_log_ok_eq] at h
  by_cases hb : bufferedSize s.buffered > s.page_size
  · rw [if_pos hb] at h
    cases h
    exact ⟨fun _ => ⟨rfl, rfl⟩, fun hc => absurd hb hc⟩
  · rw [if_neg hb] at h
    cases h
    exact ⟨fun hc => absurd hc hb, fun _ => ⟨rfl, rfl⟩⟩

/-- Witness for C3 at the concrete over-threshold state `sHot`. -/
theorem append_log_threshold_rotation_witness :
    bufferedSize sHot.buffered > sHot.page_size ∧
    (WALState.append_log true true 0 sHot eIns).state.sequence = sHot.sequence + 1 ∧
    (WALState.append_log true true 0 sHot eIns).state.buffered = [eIns] := by
  refine ⟨by decide, ?_⟩
  exact (append_log_threshold_rotation 0 sHot eIns
    ((WALState.append_log true true 0 sHot eIns).state) (by decide)).1 (by decide)

/-- C4 counterexample: in a listing where the first log file is the
most-recently-created (time 10, sealed by a `Checkpoint`) and the last-listed
one is older (time 5, ending in an `Insert`), the code inspects the
last-listed file and yields sequence 2, while the claimed most-recently-
created selection would yield sequence 3. -/
theorem load_data_listing_order_cex :
    load_data dirTwoLogs = some (2, [eIns]) ∧
    load_data_claimed dirTwoLogs = some (3, []) ∧
    load_data dirTwoLogs ≠ load_data_claimed dirTwoLogs ∧
    build 4096 dirTwoLogs = some ⟨2, 4096, []⟩ := by
  decide

/-- C4 (amended): the recovery scan yields sequence 1 with an empty buffer
when no log files are listed; otherwise it inspects the LAST log file in
directory-listing order (not necessarily the most-recently-created one),
takes the count of log files as the candidate sequence, and adds one more
exactly when that file's decoded entry sequence ends in a `Checkpoint`. -/
theorem load_data_recovery_rule (dir : List DirFile) :
    (dir.filter (fun f => f.isLog) = [] → load_data dir = some (1, [])) ∧
    (∀ f es, (dir.filter (fun f => f.isLog)).getLast? = some f →
        bitcode.decode f.content = some es →
        load_data dir =
          some ((dir.filter (fun f => f.isLog)).length +
                  (if sealedBySuffix es then 1 else 0),
                if sealedBySuffix es then [] else es)) := by
  constructor
  · intro h
    simp [load_data, h]
  · intro f es hf hdec
    simp only [load_data, hf, hdec]
    cases hes : es.getLast? with
    | none =>
        have hnil : es = [] := by simpa using hes
        subst hnil
        simp [sealedBySuffix]
    | some le =>
        cases hty : le.entry_type <;>
          simp [sealedBySuffix, hes, hty]

/-- Witness for C4 (amended) at the concrete two-file listing. -/
theorem load_data_recovery_rule_witness :
    load_data dirTwoLogs =
      some (2 + (if sealedBySuffix [eIns] then 1 else 0),
            if sealedBySuffix [eIns] then [] else [eIns]) :=
  (load_data_recovery_rule dirTwoLogs).2 ⟨true, 5, bitcode.encode [eIns]⟩ [eIns]
    (by decide) (by decide)

/-- C5: whatever the directory holds, a successfully built manager starts
with an empty buffer — even when `load_data` recovered entries from an open
segment, `build` discards them. -/
theorem build_discards_recovered_buffer (page_size : Nat) (dir : List DirFile) :
    (∀ m, build page_size dir = some m → m.buffered = []) ∧
    (∀ q entries, load_data dir = some (q, entries) →
        build page_size dir = some ⟨q, page_size, []⟩) := by
  constructor
  · intro m h
    cases hld : load_data dir with
    | none => simp [build, hld] at h
    | some pr =>
        obtain ⟨q, es⟩ := pr
        simp only [build, hld, Option.some.injEq] at h
        rw [← h]
  · intro q entries h
    simp [build, h]

/-- Witness for C5: the two-file listing recovers a nonempty entry list,
yet the built manager's buffer is empty. -/
theorem build_discards_recovered_buffer_witness :
    build 4096 dirTwoLogs = some ⟨2, 4096, []⟩ :=
  (build_discards_recovered_buffer 4096 dirTwoLogs).2 2 [eIns] (by decide)

/-- C10: when the selected segment file decodes to an empty entry sequence,
the scan treats it neither as sealed nor as open-with-entries: the sequence
is the count of log files, the buffer is empty, and construction succeeds. -/
theorem recovery_empty_segment (page_size : Nat) (dir : List DirFile)
    (f : DirFile)
    (hf : (dir.filter (fun g => g.isLog)).getLast? = some f)
    (hdec : bitcode.decode f.content = some []) :
    load_data dir = some ((dir.filter (fun g => g.isLog)).length, []) ∧
    build page_size dir =
      some ⟨(dir.filter (fun g => g.isLog)).length, page_size, []⟩ := by
  have h1 : load_data dir = some ((dir.filter (fun g => g.isLog)).length, []) := by
    simp [load_data, hf, hdec]
  exact ⟨h1, by simp [build, h1]⟩

/-- Witness for C10 at a one-file listing whose file decodes to no entries. -/
theorem recovery_empty_segment_witness :
    load_data dirEmptySegment = some (1, []) ∧
    build 4096 dirEmptySegment = some ⟨1, 4096, []⟩ :=
  recovery_empty_segment 4096 dirEmptySegment ⟨true, 0, bitcode.encode []⟩
    (by decide) (by decide)

theorem load_data_sequence_pos (dir : List DirFile) (q : Nat)
    (es : List WALEntry) (h : load_data dir = some (q, es)) : 1 ≤ q := by
  simp only [load_data] at h
  cases hg : (dir.filter (fun f => f.isLog)).getLast? with
  | none =>
      rw [hg] at h
      simp at h
      omega
  | some f =>
      rw [hg] at h
      dsimp only at h
      have hlen : 1 ≤ (dir.filter (fun f => f.isLog)).length := by
        cases hd : dir.filter (fun f => f.isLog) with
        | nil => rw [hd] at hg; simp at hg
        | cons a l => simp [hd]
      cases hdec : bitcode.decode f.content with
      | none => rw [hdec] at h; simp at h
      | some saved =>
          rw [hdec] at h
          dsimp only at h
          cases hl : saved.getLast? with
          | none =>
              rw [hl] at h
              simp at h
              omega
          | some le =>
              rw [hl] at h
              dsimp only at h
              cases hty : le.entry_type <;> rw [hty] at h <;> simp at h <;> omega

/-- C6: the sequence number is positive after any successful build and is 1
over a fresh (empty) directory; no operation — successful or failed —
decreases it; every successful checkpoint increments it by exactly 1; and
after N successful checkpoints (explicit or threshold-triggered) along any
run, the sequence equals the initial sequence plus N. -/
theorem sequence_monotonicity :
    (∀ page_size : Nat, build page_size [] = some ⟨1, page_size, []⟩) ∧
    (∀ (page_size : Nat) (dir : List DirFile) (m : WALManager),
        build page_size dir = some m → 1 ≤ m.sequence) ∧
    (∀ (ok : Bool) (s : WALState) (e : WALEntry),
        s.sequence ≤ ((s.append ok e).state).sequence) ∧
    (∀ (ok : Bool) (now : Nat) (s : WALState),
        s.sequence ≤ ((s.checkpoint ok now).state).sequence) ∧
    (∀ (ok1 ok2 : Bool) (now : Nat) (s : WALState) (e : WALEntry),
        s.sequence ≤ ((s.append_log ok1 ok2 now e).state).sequence) ∧
    (∀ (ok : Bool) (now : Nat) (s s1 : WALState),
        s.checkpoint ok now = .ok s1 → s1.sequence = s.sequence + 1) ∧
    (∀ (s : WALState) (n : Nat) (s1 : WALState),
        Reaches s n s1 → s1.sequence = s.sequence + n) := by
  refine ⟨fun p => rfl, ?_, ?_, ?_, ?_, ?_, fun s n s1 h => reaches_sequence h⟩
  · intro p dir m h
    cases hld : load_data dir with
    | none => simp [build, hld] at h
    | some pr =>
        obtain ⟨q, es⟩ := pr
        have hq := load_data_sequence_pos dir q es hld
        simp only [build, hld, Option.some.injEq] at h
        rw [← h]
        exact hq
  · intro ok s e
    cases ok <;> simp [append_true_eq, append_false_eq, WRes.state]
  · intro ok now s
    cases ok <;> simp [checkpoint_true_eq, checkpoint_false_eq, WRes.state]
  · intro ok1 ok2 now s e
    by_cases hb : bufferedSize s.buffered > s.page_size
    · cases ok1 with
      | false =>
          simp [WALState.append_log, WALState.check_and_mark, hb,
                checkpoint_false_eq, WRes.state]
      | true =>
          cases ok2 <;>
            simp [WALState.append_log, WALState.check_and_mark, hb,
                  checkpoint_true_eq, append_true_eq, append_false_eq,
                  WRes.state]
    · cases ok2 <;>
        simp [WALState.append_log, WALState.check_and_mark, hb,
              append_true_eq, append_false_eq, WRes.state]
  · intro ok now s s1 h
    cases ok with
    | true =>
        rw [checkpoint_true_eq] at h
        cases h
        rfl
    | false =>
        rw [checkpoint_false_eq] at h
        simp at h

/-- Witness for C6: one successful checkpoint from the fresh state advances
the sequence from 1 to 2. -/
theorem sequence_monotonicity_witness :
    sAfterCp.sequence = sFresh.sequence + 1 :=
  sequence_monotonicity.2.2.2.2.2.2 sFresh 1 sAfterCp
    (Reaches.step (Reaches.refl sFresh)
      (OpStep.checkpoint_step 0 sFresh sAfterCp (by decide)))

/-- C7: every successful `checkpoint` writes the synthesized marker — kind
`Checkpoint`, no payload, transaction id 0 — as the last record of the
outgoing segment file, advances the sequence by 1, and on an already-empty
buffer the outgoing segment decodes to exactly that one marker entry. -/
theorem checkpoint_marker_terminal (now : Nat) (s s1 : WALState)
    (h : s.checkpoint true now = .ok s1) :
    (checkpointEntry now).entry_type = EntryType.Checkpoint ∧
    (checkpointEntry now).data = none ∧
    (checkpointEntry now).transaction_id = 0 ∧
    (fsRead s1.fs s.sequence).bind bitcode.decode =
      some (s.buffered ++ [checkpointEntry now]) ∧
    (s.buffered ++ [checkpointEntry now]).getLast? = some (checkpointEntry now) ∧
    s1.sequence = s.sequence + 1 ∧
    (s.buffered = [] →
        (fsRead s1.fs s.sequence).bind bitcode.decode =
          some [checkpointEntry now]) := by
  rw [checkpoint_true_eq] at h
  cases h
  refine ⟨rfl, rfl, rfl, ?_, ?_, rfl, ?_⟩
  · simp [fsRead_fsWrite_self, bitcode.decode_encode]
  · exact List.getLast?_concat _
  · intro hb
    simp [hb, fsRead_fsWrite_self, bitcode.decode_encode]

/-- Witness for C7: the fresh state's checkpoint writes a segment holding
exactly one `Checkpoint` entry. -/
theorem checkpoint_marker_terminal_witness :
    (fsRead sAfterCp.fs sFresh.sequence).bind bitcode.decode =
      some [checkpointEntry 0] :=
  (checkpoint_marker_terminal 0 sFresh sAfterCp (by decide)).2.2.2.2.2.2 (by decide)
